import Mathlib

/-!
Verification of the stencil-ds-output-targets core logic.

This file gives a shallow embedding of the two source files

  * packages/vue-output-target/vue-component-lib/utils.ts
    (the Vue wrapper-component factory: `defineContainer` and its helpers),
  * packages/react-library-output/src/output-react.ts
    (the React proxy generator),

and proves the specification claims about them.  JavaScript values that the
code manipulates are modelled by the `Value` type; JavaScript objects become
association lists; the unique sentinel `EMPTY_PROP = Symbol()` becomes the
dedicated constructor `Value.empty`, distinct from `Value.undef`
(JavaScript's `undefined`).  Event listeners and click handlers are modelled
as functions producing an ordered trace of their observable actions.
-/

namespace StencilVeri

/-- A JavaScript runtime value, as far as the wrapper library inspects one.
`empty` models the module-level sentinel `EMPTY_PROP = Symbol()` (utils.ts
line 24); `undef` models `undefined`.  The sentinel is a fresh symbol, hence
distinct from every other value, which the separate constructor captures. -/
inductive Value where
  | empty : Value
  | undef : Value
  | str : String → Value
  | num : Int → Value
  | boolean : Bool → Value
deriving DecidableEq

/-- A JavaScript object (e.g. the Vue `props` object, or an event target),
modelled as an association list from property names to values. -/
abbrev JsObj := List (String × Value)

/-- Property read `obj[key]`: an absent property reads as `undefined`. -/
def jsGet (obj : JsObj) (key : String) : Value :=
  (List.lookup key obj).getD Value.undef

/-- JavaScript coerces a non-string property key to a string; reading
`obj[k]` where `k` is `undefined` reads `obj["undefined"]`.  This models the
key actually used by `props[modelProp]` / `target[modelProp]` when the
optional `modelProp` configuration is absent. -/
def jsKeyStr : Option String → String
  | none => "undefined"
  | some s => s

/-- Truthiness of an optional string, as used by `if (modelProp)`,
`if (externalModelUpdateEvent)`: `undefined` and the empty string are falsy. -/
def jsStrTruthy : Option String → Bool
  | none => false
  | some s => !s.isEmpty

/-- JavaScript `String.prototype.startsWith`, modelled over the character
list of the string. -/
def jsStartsWith (s p : String) : Bool :=
  p.data.isPrefixOf s.data

/-- JavaScript `String.prototype.split` with a one-character separator,
modelled over character lists: `split` never yields an empty array, the
empty string splits to `[""]`, and only the exact separator character
delimits pieces. -/
def splitOnChar (sep : Char) : List Char → List (List Char)
  | [] => [[]]
  | c :: rest =>
    let r := splitOnChar sep rest
    if c = sep then [] :: r
    else
      match r with
      | [] => [[c]]
      | h :: t => (c :: h) :: t

/-- JavaScript `s.split(' ')`. -/
def jsSplitOnSpace (s : String) : List String :=
  (splitOnChar ' ' s.data).map (fun l => String.mk l)

/-- utils.ts line 9: `const UPDATE_VALUE_EVENT = 'update:modelValue'`. -/
def UPDATE_VALUE_EVENT : String := "update:modelValue"

/-- utils.ts line 10: `const MODEL_VALUE = 'modelValue'`. -/
def MODEL_VALUE : String := "modelValue"

/-- utils.ts line 11: `const ROUTER_LINK_VALUE = 'routerLink'`.
The name prefixes `'router'` (ROUTER_PROP_, utils.ts line 13) and `'aria'`
(ARIA_PROP_, utils.ts line 14) are inlined as string literals below. -/
def ROUTER_LINK_VALUE : String := "routerLink"

/-- utils.ts lines 31-33, `getComponentClasses`:
`(classes as string)?.split(' ') || []`.  The optional-chaining call yields
`undefined` (falsy) exactly when `classes` is nullish, in which case `|| []`
supplies the empty array; a string (even the empty one) is split on the
single space character U+0020 only.  Vue normalizes the fall-through `class`
attr to a string before the wrapper sees it, so the input is modelled as an
optional string. -/
def getComponentClasses (classes : Option String) : List String :=
  match classes with
  | none => []
  | some s => jsSplitOnSpace s

/-- utils.ts lines 178-183: the prop-forwarding loop of the render function.
`for (const key in props)` visits own enumerable keys, so
`props.hasOwnProperty(key)` is `true`; an entry is copied into `propsToAdd`
iff its value is not the `EMPTY_PROP` sentinel or its key starts with the
accessibility prefix `'aria'`. -/
def forwardedProps (props : JsObj) : JsObj :=
  props.filter (fun kv => (kv.2 != Value.empty) || jsStartsWith kv.1 "aria")

/-- Object-spread update `{...obj, [k]: v}`: if `k` is already a key, its
value is replaced in place; otherwise the pair is appended. -/
def objSet : JsObj → String → Value → JsObj
  | [], k, v => [(k, v)]
  | kv :: rest, k, v => if kv.1 = k then (k, v) :: rest else kv :: objSet rest k v

theorem lookup_objSet (l : JsObj) (k : String) (v : Value) :
    List.lookup k (objSet l k v) = some v := by
  induction l with
  | nil => simp [objSet, List.lookup]
  | cons kv rest ih =>
    by_cases h : kv.1 = k
    · simp [objSet, h, List.lookup]
    · have h2 : (k == kv.1) = false := by
        simp [beq_iff_eq]
        exact fun he => h he.symm
      simp [objSet, h, List.lookup, h2, ih]

theorem lookup_eq_of_mem_nodup {l : JsObj} {k : String} {w : Value}
    (hnd : (l.map Prod.fst).Nodup) (hmem : (k, w) ∈ l) :
    List.lookup k l = some w := by
  induction l with
  | nil => cases hmem
  | cons kv rest ih =>
    simp only [List.map_cons, List.nodup_cons] at hnd
    rcases List.mem_cons.mp hmem with heq | hrest
    · cases heq
      simp [List.lookup]
    · have hk : k ≠ kv.1 := by
        intro he
        exact hnd.1 (he ▸ (List.mem_map.mpr ⟨(k, w), hrest, rfl⟩))
      have h2 : (k == kv.1) = false := by simpa [beq_iff_eq] using hk
      simp [List.lookup, h2, ih hnd.2 hrest]

theorem splitOnChar_of_not_mem {sep : Char} {l : List Char} (h : sep ∉ l) :
    splitOnChar sep l = [l] := by
  induction l with
  | nil => rfl
  | cons c rest ih =>
    have hc : c ≠ sep := fun he => h (he ▸ List.mem_cons_self c rest)
    have hrest : sep ∉ rest := fun hm => h (List.mem_cons_of_mem c hm)
    simp [splitOnChar, hc, ih hrest]

/-- Claim C10: `getComponentClasses` is total over all class inputs: an
absent/undefined class attribute yields the empty list (no exception), and a
string input is split on the single space character only, so a string with
no space — even one holding other whitespace such as a tab — is kept as a
single class. -/
theorem getComponentClasses_total :
    getComponentClasses none = [] ∧
    (∀ s : String, ' ' ∉ s.data → getComponentClasses (some s) = [s]) ∧
    getComponentClasses (some "a b") = ["a", "b"] ∧
    getComponentClasses (some "a\tb") = ["a\tb"] ∧
    getComponentClasses (some "") = [""] := by
  refine ⟨rfl, ?_, by decide, by decide, by decide⟩
  intro s hs
  simp [getComponentClasses, jsSplitOnSpace, splitOnChar_of_not_mem hs]

/-- Witness for C10 at a concrete input: a tab-separated pair of names is a
single class entry. -/
theorem getComponentClasses_total_witness :
    getComponentClasses (some "x\ty") = ["x\ty"] :=
  getComponentClasses_total.2.1 "x\ty" (by decide)

/-- Claim C3: for every render and declared input, the prop-forwarding loop
forwards the name/value pair to the underlying element iff the value is not
the unset sentinel or the name starts with the accessibility prefix `aria`;
a sentinel-valued non-aria input is never forwarded, and an aria-prefixed
input is forwarded regardless of its sentinel state. -/
theorem propForwarding_iff (props : JsObj) (k : String) (v : Value) :
    ((k, v) ∈ forwardedProps props ↔
      ((k, v) ∈ props ∧ (v ≠ Value.empty ∨ jsStartsWith k "aria" = true))) ∧
    ((k, v) ∈ props → v = Value.empty → jsStartsWith k "aria" = false →
      (k, v) ∉ forwardedProps props) ∧
    ((k, v) ∈ props → jsStartsWith k "aria" = true → (k, v) ∈ forwardedProps props) := by
  have hiff : (k, v) ∈ forwardedProps props ↔
      ((k, v) ∈ props ∧ (v ≠ Value.empty ∨ jsStartsWith k "aria" = true)) := by
    simp [forwardedProps, List.mem_filter, bne_iff_ne]
  refine ⟨hiff, ?_, ?_⟩
  · intro hmem hv haria hfwd
    rcases (hiff.mp hfwd).2 with h | h
    · exact h hv
    · rw [haria] at h
      cases h
  · intro hmem haria
    exact hiff.mpr ⟨hmem, Or.inr haria⟩

/-- Witness for C3 at a concrete input: an aria-prefixed input left at the
sentinel is still forwarded. -/
theorem propForwarding_iff_witness :
    ("ariaLabel", Value.empty) ∈ forwardedProps [("ariaLabel", Value.empty)] :=
  (propForwarding_iff [("ariaLabel", Value.empty)] "ariaLabel" Value.empty).2.2
    (by decide) (by decide)

/-- A native DOM event, as far as the wrapper inspects one: the target
object whose properties the model listener reads, and the
`defaultPrevented` flag consulted by the click handler. -/
structure Event where
  target : JsObj
  defaultPrevented : Bool
deriving DecidableEq

/-- Payload of a Vue `emit` call: either a value (the `update:modelValue`
payload) or the original native event (custom / external re-emit events). -/
inductive EmitPayload where
  | val : Value → EmitPayload
  | ev : Event → EmitPayload
deriving DecidableEq

/-- One observable action of the model-update event listener, in execution
order: writing the cached `modelPropValue`, or emitting an output. -/
inductive ListenerAct where
  | setCache : Value → ListenerAct
  | emitted : String → EmitPayload → ListenerAct
deriving DecidableEq

/-- utils.ts lines 89-104: the body of the listener attached for each
configured model-update event name.  On a firing it
1. reads `(e?.target)[modelProp]` and stores it in the cached
   `modelPropValue` (line 90),
2. emits `update:modelValue` with that value (line 91),
3. if `externalModelUpdateEvent` is configured (truthy), emits it with the
   original native event (lines 101-103).
The returned list is the ordered trace of these actions. -/
def modelListenerFire (modelProp : Option String)
    (externalModelUpdateEvent : Option String) (e : Event) : List ListenerAct :=
  let v := jsGet e.target (jsKeyStr modelProp)
  [ListenerAct.setCache v, ListenerAct.emitted UPDATE_VALUE_EVENT (EmitPayload.val v)] ++
  (if jsStrTruthy externalModelUpdateEvent then
    [ListenerAct.emitted (jsKeyStr externalModelUpdateEvent) (EmitPayload.ev e)]
  else [])

/-- The cached `modelPropValue` after running a trace of listener actions
from an initial cache value. -/
def foldCache : Value → List ListenerAct → Value
  | c, [] => c
  | _, ListenerAct.setCache v :: rest => foldCache v rest
  | c, ListenerAct.emitted _ _ :: rest => foldCache c rest

/-- The string-or-array union type of the (untyped) `modelUpdateEvent`
configuration: utils.ts line 87 normalizes it with
`Array.isArray(modelUpdateEvent) ? modelUpdateEvent : [modelUpdateEvent]`. -/
inductive JsStrOrArr where
  | single : String → JsStrOrArr
  | arr : List String → JsStrOrArr
deriving DecidableEq

/-- Truthiness of the `modelUpdateEvent` configuration value: strings are
falsy only when empty; an array is always truthy. -/
def jsStrOrArrTruthy : JsStrOrArr → Bool
  | JsStrOrArr.single s => !s.isEmpty
  | JsStrOrArr.arr _ => true

/-- utils.ts lines 86-88: the model-update event names for which
`onVnodeBeforeMount` attaches a listener.  The guard is
`if (modelUpdateEvent)` — the `modelProp` configuration is not consulted. -/
def attachedModelListeners (modelUpdateEvent : Option JsStrOrArr) : List String :=
  match modelUpdateEvent with
  | none => []
  | some v =>
    if jsStrOrArrTruthy v then
      match v with
      | JsStrOrArr.single s => [s]
      | JsStrOrArr.arr l => l
    else []

/-- Claim C1: on each firing of a configured model-update event (with a
model property `p` and external re-emit output `x` configured), the trace
ends with the external emit carrying the original native event; strictly
before it, `update:modelValue` is emitted carrying the value read from the
event target's model property; and the cached model value at the moment the
external emit happens equals that same payload, whatever the cache held
before the firing. -/
theorem modelEvent_ordering (p x : String) (e : Event) (c : Value) (hx : x ≠ "") :
    ∃ pre, modelListenerFire (some p) (some x) e =
        pre ++ [ListenerAct.emitted x (EmitPayload.ev e)] ∧
      ListenerAct.emitted UPDATE_VALUE_EVENT (EmitPayload.val (jsGet e.target p)) ∈ pre ∧
      foldCache c pre = jsGet e.target p := by
  have hxe : x.isEmpty = false := by
    cases hxe : x.isEmpty
    · rfl
    · exact absurd ((String.isEmpty_iff x).mp hxe) hx
  refine ⟨[ListenerAct.setCache (jsGet e.target p),
    ListenerAct.emitted UPDATE_VALUE_EVENT (EmitPayload.val (jsGet e.target p))], ?_, ?_, ?_⟩
  · simp [modelListenerFire, jsStrTruthy, jsKeyStr, hxe]
  · simp
  · simp [foldCache]

/-- Witness for C1: the spec's own example — `modelProp = "value"`, a native
event whose target's `value` property is `"abc"` — fires
`update:modelValue` with payload `"abc"` before the external `"ionChange"`
emit, and the cache seen at the external emit is `"abc"`. -/
theorem modelEvent_ordering_witness :
    ∃ pre, modelListenerFire (some "value") (some "ionChange")
          ⟨[("value", Value.str "abc")], false⟩ =
        pre ++ [ListenerAct.emitted "ionChange"
          (EmitPayload.ev ⟨[("value", Value.str "abc")], false⟩)] ∧
      ListenerAct.emitted UPDATE_VALUE_EVENT (EmitPayload.val
        (jsGet [("value", Value.str "abc")] "value")) ∈ pre ∧
      foldCache Value.empty pre = jsGet [("value", Value.str "abc")] "value" :=
  modelEvent_ordering "value" "ionChange" ⟨[("value", Value.str "abc")], false⟩
    Value.empty (by decide)

/-- Claim C9: with a model-update event name configured but no `modelProp`,
the listener is still attached (model wiring is not skipped), and each
firing emits `update:modelValue` whose payload is the result of reading the
absent model property off the event target — `undefined` whenever the
target has no property literally named `"undefined"`. -/
theorem modelWiring_without_modelProp (uev : String) (ext : Option String) (e : Event)
    (huev : uev ≠ "") (htarget : List.lookup "undefined" e.target = none) :
    attachedModelListeners (some (JsStrOrArr.single uev)) = [uev] ∧
    ∃ rest, modelListenerFire none ext e =
      ListenerAct.setCache Value.undef ::
        ListenerAct.emitted UPDATE_VALUE_EVENT (EmitPayload.val Value.undef) :: rest := by
  have huve : uev.isEmpty = false := by
    cases h : uev.isEmpty
    · rfl
    · exact absurd ((String.isEmpty_iff uev).mp h) huev
  have hv : jsGet e.target (jsKeyStr none) = Value.undef := by
    simp [jsGet, jsKeyStr, htarget]
  constructor
  · simp [attachedModelListeners, jsStrOrArrTruthy, huve]
  · refine ⟨(if jsStrTruthy ext then
      [ListenerAct.emitted (jsKeyStr ext) (EmitPayload.ev e)] else []), ?_⟩
    simp [modelListenerFire, hv]

/-- Witness for C9 at a concrete input: event name `"ionChange"`, no model
property, a target with only a `value` property. -/
theorem modelWiring_without_modelProp_witness :
    attachedModelListeners (some (JsStrOrArr.single "ionChange")) = ["ionChange"] ∧
    ∃ rest, modelListenerFire none (some "ionChange")
        ⟨[("value", Value.str "abc")], false⟩ =
      ListenerAct.setCache Value.undef ::
        ListenerAct.emitted UPDATE_VALUE_EVENT (EmitPayload.val Value.undef) :: rest :=
  modelWiring_without_modelProp "ionChange" (some "ionChange")
    ⟨[("value", Value.str "abc")], false⟩ (by decide) (by decide)

/-- The argument handed to `navManager.navigate` (utils.ts lines 134-142):
the originating event under the `event` key, merged with every prop whose
name starts with the router prefix and whose value is not the sentinel. -/
structure NavPayload where
  event : Event
  routerProps : JsObj
deriving DecidableEq

/-- One observable effect of a click on the wrapper: the caller-supplied
click handler running, a `navManager.navigate` call, or the
`console.warn` diagnostic for a missing router. -/
inductive ClickEffect where
  | callerHandler : ClickEffect
  | navigate : NavPayload → ClickEffect
  | warnNoRouter : ClickEffect
deriving DecidableEq

/-- utils.ts lines 135-140: the props collected into the navigation payload
— every key starting with `'router'` (ROUTER_PROP_ prefix) whose value is
not `EMPTY_PROP`. -/
def routerPayloadProps (props : JsObj) : JsObj :=
  props.filter (fun kv => jsStartsWith kv.1 "router" && (kv.2 != Value.empty))

/-- utils.ts lines 129-146, `handleRouterLink`: returns immediately when the
`routerLink` prop is the sentinel; otherwise, with a nav manager present,
calls its `navigate` with the event plus the router-prefixed props, and with
no nav manager logs the `console.warn` diagnostic.  The `navManager`
argument models whether the ambient `NAV_MANAGER` injection found one. -/
def handleRouterLink (props : JsObj) (navManager : Bool) (ev : Event) : List ClickEffect :=
  if jsGet props ROUTER_LINK_VALUE = Value.empty then []
  else if navManager then
    [ClickEffect.navigate ⟨ev, routerPayloadProps props⟩]
  else [ClickEffect.warnNoRouter]

/-- utils.ts lines 155-163, `handleClick`: runs the caller-supplied
`onClick` first when one exists (modelled as a function that may mutate the
event, e.g. call `preventDefault`), then calls `handleRouterLink` unless the
event's default was prevented. -/
def handleClick (oldClick : Option (Event → Event)) (props : JsObj) (navManager : Bool)
    (ev : Event) : List ClickEffect :=
  match oldClick with
  | some f =>
    let ev2 := f ev
    ClickEffect.callerHandler ::
      (if ev2.defaultPrevented then [] else handleRouterLink props navManager ev2)
  | none =>
    if ev.defaultPrevented then [] else handleRouterLink props navManager ev

/-- Claim C4: with a caller-supplied click handler, a click runs the
caller's handler first; `navigate` is invoked iff the default was not
prevented, `routerLink` is not the sentinel, and a navigation host is
available; and the payload is then exactly the originating event plus the
non-sentinel router-prefixed props. -/
theorem click_runs_handler_then_navigates (f : Event → Event) (props : JsObj)
    (nav : Bool) (ev : Event) :
    (∃ rest, handleClick (some f) props nav ev = ClickEffect.callerHandler :: rest) ∧
    ((f ev).defaultPrevented = false → jsGet props ROUTER_LINK_VALUE ≠ Value.empty →
      nav = true →
      handleClick (some f) props nav ev =
        [ClickEffect.callerHandler, ClickEffect.navigate ⟨f ev, routerPayloadProps props⟩]) ∧
    (∀ pl, ClickEffect.navigate pl ∈ handleClick (some f) props nav ev →
      ((f ev).defaultPrevented = false ∧ jsGet props ROUTER_LINK_VALUE ≠ Value.empty ∧
        nav = true ∧ pl = ⟨f ev, routerPayloadProps props⟩)) := by
  refine ⟨⟨_, rfl⟩, ?_, ?_⟩
  · intro hprev hrl hnav
    simp [handleClick, hprev, handleRouterLink, hrl, hnav]
  · intro pl hmem
    simp only [handleClick, List.mem_cons] at hmem
    rcases hmem with h | hmem
    · cases h
    by_cases hprev : (f ev).defaultPrevented
    · simp [hprev] at hmem
    · simp only [hprev, if_neg Bool.false_ne_true, Bool.not_eq_true] at hmem
      by_cases hrl : jsGet props ROUTER_LINK_VALUE = Value.empty
      · simp [handleRouterLink, hrl] at hmem
      · cases hnav : nav
        · rw [hnav] at hmem
          simp [handleRouterLink, hrl] at hmem
        · rw [hnav] at hmem
          simp [handleRouterLink, hrl] at hmem
          exact ⟨by simpa using hprev, hrl, rfl, hmem⟩

/-- The props of the spec's C4 example: `routerLink: "/home"`,
`routerDirection: "forward"`. -/
def c4Props : JsObj :=
  [("routerLink", Value.str "/home"), ("routerDirection", Value.str "forward")]

/-- Witness for C4: the spec's example — `routerLink` `"/home"`,
`routerDirection` `"forward"`, a caller handler that does not prevent
default — navigates with a payload carrying both router props and the
originating event. -/
theorem click_runs_handler_then_navigates_witness :
    handleClick (some (fun e2 => e2)) c4Props true ⟨[], false⟩ =
      [ClickEffect.callerHandler,
       ClickEffect.navigate ⟨⟨[], false⟩, c4Props⟩] := by
  have h := (click_runs_handler_then_navigates (fun e2 => e2) c4Props true
    ⟨[], false⟩).2.1 rfl (by decide) rfl
  have hrp : routerPayloadProps c4Props = c4Props := by decide
  rw [h, hrp]

/-- The props used by the C6 scenario: `routerLink` set, nothing else. -/
def c6Props : JsObj := [("routerLink", Value.str "/home")]

/-- The effect trace of one click on a wrapper with `routerLink` set and no
navigation host registered. -/
def c6Click : List ClickEffect := handleClick none c6Props false ⟨[], false⟩

/-- Counterexample to Claim C6: the claim says the missing-router warning is
logged at most once (not once per click).  But the code calls
`console.warn` inside `handleRouterLink` with no once-guard: each click
produces a warning, so two successive clicks log two warnings, refuting
"at most once".  (No navigation happens and each click is a plain returned
trace — that part of the claim holds.) -/
theorem router_warning_not_once_counterexample :
    c6Click = [ClickEffect.warnNoRouter] ∧
    (c6Click ++ c6Click).count ClickEffect.warnNoRouter = 2 ∧
    ¬ ((c6Click ++ c6Click).count ClickEffect.warnNoRouter ≤ 1) := by
  refine ⟨by decide, by decide, by decide⟩

/-- Claim C6 as amended: for every click with `routerLink` set (not the
sentinel) and no navigation host, the interception performs no navigation
and does not throw; its only effect is one diagnostic warning per such
click (rather than a single warning overall). -/
theorem router_warning_per_click (props : JsObj) (ev : Event)
    (hrl : jsGet props ROUTER_LINK_VALUE ≠ Value.empty)
    (hprev : ev.defaultPrevented = false) :
    handleClick none props false ev = [ClickEffect.warnNoRouter] := by
  simp [handleClick, hprev, handleRouterLink, hrl]

/-- Witness for the amended C6 at a concrete input. -/
theorem router_warning_per_click_witness :
    handleClick none c6Props false ⟨[], false⟩ = [ClickEffect.warnNoRouter] :=
  router_warning_per_click c6Props ⟨[], false⟩ (by decide) rfl

/-- utils.ts lines 148-206: the prop-computing part of the render closure.
Line 149 first overwrites the cached `modelPropValue` with
`props[modelProp]` (so the incoming cache value `_cacheIn` is never read by
the precedence check below — it is a parameter only to record that the
closure holds a cache across renders).  The loop of lines 178-183 fills
`propsToAdd` (`forwardedProps`); lines 185-203 then apply the model-value
precedence: a non-sentinel `modelValue` input wins, else a non-sentinel
cached `modelPropValue` is forwarded, else the model property is left
alone.  The fixed entries `ref`, `class`, `onClick`, `onVnodeBeforeMount`
of `propsToAdd` are modelled separately (`getElementClasses`,
`handleClick`, `onVnodeBeforeMount` helpers).  Returns the forwarded props
and the cache value after the render. -/
def render (modelProp : Option String) (props : JsObj) (_cacheIn : Value) :
    JsObj × Value :=
  let modelPropValue := jsGet props (jsKeyStr modelProp)
  let propsToAdd := forwardedProps props
  let propsToAdd2 :=
    if jsStrTruthy modelProp then
      (if jsGet props MODEL_VALUE != Value.empty then
        objSet propsToAdd (jsKeyStr modelProp) (jsGet props MODEL_VALUE)
      else if modelPropValue != Value.empty then
        objSet propsToAdd (jsKeyStr modelProp) modelPropValue
      else propsToAdd)
    else propsToAdd
  (propsToAdd2, modelPropValue)

/-- Claim C2: on every render with a model property `mp` configured, the
cache is refreshed to `props[mp]`; if the `modelValue` input is not the
sentinel the value forwarded for `mp` is exactly the `modelValue` input
(the static value wins even when a cached value is present); otherwise if
the cached model value is not the sentinel it is forwarded; otherwise no
value is forwarded for `mp`.  The props object is assumed to have distinct
keys (JavaScript objects cannot repeat a key) and `mp` not aria-prefixed
(it enters the render through the model configuration, not the aria
fall-through). -/
theorem modelValue_precedence (mp : String) (props : JsObj) (c : Value)
    (hmp : mp ≠ "") (haria : jsStartsWith mp "aria" = false)
    (hnd : (props.map Prod.fst).Nodup) :
    (render (some mp) props c).2 = jsGet props mp ∧
    (jsGet props MODEL_VALUE ≠ Value.empty →
      jsGet (render (some mp) props c).1 mp = jsGet props MODEL_VALUE) ∧
    (jsGet props MODEL_VALUE = Value.empty → jsGet props mp ≠ Value.empty →
      jsGet (render (some mp) props c).1 mp = jsGet props mp) ∧
    (jsGet props MODEL_VALUE = Value.empty → jsGet props mp = Value.empty →
      mp ∉ (render (some mp) props c).1.map Prod.fst) := by
  have htr : jsStrTruthy (some mp) = true := by
    cases h : mp.isEmpty
    · simp [jsStrTruthy, h]
    · exact absurd ((String.isEmpty_iff mp).mp h) hmp
  refine ⟨by simp [render, jsKeyStr], ?_, ?_, ?_⟩
  · intro hmv
    have hout : (render (some mp) props c).1 =
        objSet (forwardedProps props) mp (jsGet props MODEL_VALUE) := by
      simp [render, jsKeyStr, htr, hmv]
    rw [hout]
    simp [jsGet, lookup_objSet]
  · intro hmv hcache
    have hout : (render (some mp) props c).1 =
        objSet (forwardedProps props) mp (jsGet props mp) := by
      simp [render, jsKeyStr, htr, hmv, hcache]
    rw [hout]
    simp [jsGet, lookup_objSet]
  · intro hmv hcache hmem
    have hmem2 : mp ∈ (forwardedProps props).map Prod.fst := by
      have hout : (render (some mp) props c).1 = forwardedProps props := by
        simp [render, jsKeyStr, htr, hmv, hcache]
      rwa [hout] at hmem
    rcases List.mem_map.mp hmem2 with ⟨kv, hkv, hfst⟩
    have h2 := (propForwarding_iff props kv.1 kv.2).1.mp (by simpa using hkv)
    have hlk : List.lookup kv.1 props = some kv.2 := lookup_eq_of_mem_nodup hnd h2.1
    have hveq : kv.2 = Value.empty := by
      have hjs : jsGet props mp = kv.2 := by
        rw [← hfst]
        simp [jsGet, hlk]
      rw [← hjs]
      exact hcache
    rcases h2.2 with h | h
    · exact h hveq
    · rw [hfst, haria] at h
      cases h

/-- Witness for C2 at a concrete input: both a static `modelValue` and a
non-sentinel `value` prop (the refreshed cache) are present, and the static
value is the one forwarded for the model property. -/
theorem modelValue_precedence_witness :
    jsGet (render (some "value")
        [("modelValue", Value.str "static"), ("value", Value.str "cached")]
        Value.undef).1 "value" = Value.str "static" := by
  have h := (modelValue_precedence "value"
    [("modelValue", Value.str "static"), ("value", Value.str "cached")]
    Value.undef (by decide) (by decide) (by decide)).2.1 (by decide)
  simpa [jsGet] using h

/-- JavaScript `Array.prototype.indexOf`, restricted to the use the code
makes of it: the index of the first occurrence of `c`.  (For an absent
element JavaScript yields `-1`; the code only ever probes elements of the
array itself, where the first-occurrence index is total, so the absent case
is modelled by the off-the-end index.) -/
def jsIndexOf : List String → String → Nat
  | [], _ => 0
  | x :: rest, c => if x = c then 0 else jsIndexOf rest c + 1

theorem jsIndexOf_append_of_not_mem {c : String} :
    ∀ {l₁ : List String} (l₂ : List String), c ∉ l₁ →
      jsIndexOf (l₁ ++ l₂) c = l₁.length + jsIndexOf l₂ c := by
  intro l₁
  induction l₁ with
  | nil => intro l₂ _; simp [Nat.zero_add]
  | cons x t ih =>
    intro l₂ hc
    have hx : ¬ (x = c) := fun he => hc (he ▸ List.mem_cons_self x t)
    have ht : c ∉ t := fun hm => hc (List.mem_cons_of_mem x hm)
    have h1 : jsIndexOf ((x :: t) ++ l₂) c = jsIndexOf (t ++ l₂) c + 1 := by
      rw [List.cons_append]
      simp only [jsIndexOf, if_neg hx]
    rw [h1, ih l₂ ht, List.length_cons]
    omega

theorem jsIndexOf_get {L : List String} (hnd : L.Nodup) :
    ∀ (k : Nat) (hk : k < L.length), jsIndexOf L (L.get ⟨k, hk⟩) = k := by
  induction L with
  | nil => intro k hk; cases hk
  | cons x t ih =>
    intro k hk
    rcases List.nodup_cons.mp hnd with ⟨hx, ht⟩
    cases k with
    | zero => simp [jsIndexOf]
    | succ k =>
      have hkt : k < t.length := Nat.lt_of_succ_lt_succ hk
      have hmem : t.get ⟨k, hkt⟩ ∈ t := List.get_mem t k hkt
      have hne : ¬ (x = t.get ⟨k, hkt⟩) := fun he => hx (he ▸ hmem)
      have hgl : (x :: t).get ⟨k + 1, hk⟩ = t.get ⟨k, hkt⟩ := rfl
      rw [hgl]
      have hstep : jsIndexOf (x :: t) (t.get ⟨k, hkt⟩) =
          jsIndexOf t (t.get ⟨k, hkt⟩) + 1 := by
        simp only [jsIndexOf, if_neg hne]
      rw [hstep, ih ht k hkt]

theorem contains_true_iff (l : List String) (c : String) :
    l.contains c = true ↔ c ∈ l := by
  simp

/-- utils.ts lines 35-43, `getElementClasses`: spread the underlying
element's live class list (empty when the element ref is not yet set) and
the default classes into one array, and keep an entry iff it is not among
the wrapper's own classes and this is its first occurrence in the array
(`self.indexOf(c) === i`).  The index-aware `filter` callback is modelled
by pairing every element with its index (`List.enum`). -/
def getElementClasses (refClasses : Option (List String)) (componentClasses : List String)
    (defaultClasses : List String) : List String :=
  let all := refClasses.getD [] ++ defaultClasses
  (all.enum.filter
    (fun p => !(componentClasses.contains p.2) && (jsIndexOf all p.2 == p.1))).map Prod.snd

/-- An index-carrying filter: the recursive form of
`(enumFrom n l).filter (fun p => f p.2 p.1) |>.map Prod.snd` used to reason
about `getElementClasses`. -/
def filterIdx (f : String → Nat → Bool) : List String → Nat → List String
  | [], _ => []
  | c :: rest, i => if f c i then c :: filterIdx f rest (i + 1) else filterIdx f rest (i + 1)

/-- The filter of `getElementClasses`, as a recursive function of the
combined array `all` and the component-class set. -/
def classFilter (all comp : List String) : List String :=
  filterIdx (fun c i => !(comp.contains c) && (jsIndexOf all c == i)) all 0

theorem classFilter_enumFrom (all comp : List String) :
    ∀ (l : List String) (n : Nat),
      ((List.enumFrom n l).filter
          (fun p => !(comp.contains p.2) && (jsIndexOf all p.2 == p.1))).map Prod.snd =
        filterIdx (fun c i => !(comp.contains c) && (jsIndexOf all c == i)) l n := by
  intro l
  induction l with
  | nil => intro n; rfl
  | cons c rest ih =>
    intro n
    by_cases h : (!(comp.contains c) && (jsIndexOf all c == n)) = true
    · simp only [List.enumFrom, List.filter_cons, h, ite_true, List.map_cons, filterIdx]
      rw [ih (n + 1)]
    · simp only [List.enumFrom, List.filter_cons, filterIdx]
      rw [if_neg h, if_neg h]
      exact ih (n + 1)

theorem getElementClasses_eq_classFilter (rc : Option (List String))
    (comp dc : List String) :
    getElementClasses rc comp dc = classFilter (rc.getD [] ++ dc) comp := by
  show ((List.enumFrom 0 (rc.getD [] ++ dc)).filter
      (fun p => !(comp.contains p.2) && (jsIndexOf (rc.getD [] ++ dc) p.2 == p.1))).map
        Prod.snd = _
  exact classFilter_enumFrom _ comp _ 0

theorem mem_filterIdx_class {all comp : List String} {x : String} :
    ∀ {l : List String} {j : Nat},
      x ∈ filterIdx (fun c i => !(comp.contains c) && (jsIndexOf all c == i)) l j →
      x ∉ comp ∧ j ≤ jsIndexOf all x := by
  intro l
  induction l with
  | nil => intro j h; cases h
  | cons c rest ih =>
    intro j h
    by_cases hc : (!(comp.contains c) && (jsIndexOf all c == j)) = true
    · rw [filterIdx, if_pos hc] at h
      rcases List.mem_cons.mp h with he | hm
      · subst he
        have hc2 : x ∉ comp ∧ jsIndexOf all x = j := by simpa using hc
        exact ⟨hc2.1, Nat.le_of_eq hc2.2.symm⟩
      · rcases ih hm with ⟨h1, h2⟩
        exact ⟨h1, Nat.le_of_succ_le h2⟩
    · rw [filterIdx, if_neg hc] at h
      rcases ih h with ⟨h1, h2⟩
      exact ⟨h1, Nat.le_of_succ_le h2⟩

theorem nodup_filterIdx_class {all comp : List String} :
    ∀ (l : List String) (j : Nat),
      (filterIdx (fun c i => !(comp.contains c) && (jsIndexOf all c == i)) l j).Nodup := by
  intro l
  induction l with
  | nil => intro j; exact List.nodup_nil
  | cons c rest ih =>
    intro j
    by_cases hc : (!(comp.contains c) && (jsIndexOf all c == j)) = true
    · rw [filterIdx, if_pos hc]
      refine List.nodup_cons.mpr ⟨?_, ih (j + 1)⟩
      intro hmem
      have h2 := (mem_filterIdx_class hmem).2
      have hc2 : c ∉ comp ∧ jsIndexOf all c = j := by simpa using hc
      rw [hc2.2] at h2
      omega
    · rw [filterIdx, if_neg hc]
      exact ih (j + 1)

theorem filterIdx_class_eq_nil {all comp : List String} :
    ∀ (l : List String) (j : Nat), (∀ c ∈ l, c ∈ comp) →
      filterIdx (fun c i => !(comp.contains c) && (jsIndexOf all c == i)) l j = [] := by
  intro l
  induction l with
  | nil => intro j _; rfl
  | cons c rest ih =>
    intro j hall
    have hc : c ∈ comp := hall c (List.mem_cons_self c rest)
    rw [filterIdx, if_neg (by simp [hc])]
    exact ih (j + 1) (fun d hd => hall d (List.mem_cons_of_mem c hd))

theorem filterIdx_class_eq_self {all comp : List String} :
    ∀ (L : List String) (j : Nat),
      (∀ (k : Nat) (hk : k < L.length),
        L.get ⟨k, hk⟩ ∉ comp ∧ jsIndexOf all (L.get ⟨k, hk⟩) = j + k) →
      filterIdx (fun c i => !(comp.contains c) && (jsIndexOf all c == i)) L j = L := by
  intro L
  induction L with
  | nil => intro j _; rfl
  | cons c rest ih =>
    intro j hall
    rcases hall 0 (Nat.succ_pos _) with ⟨h1, h2⟩
    have hc0 : (c :: rest).get ⟨0, Nat.succ_pos _⟩ = c := rfl
    rw [hc0] at h1 h2
    have hcond : (!(comp.contains c) && (jsIndexOf all c == j)) = true := by
      simp [h1, h2]
    rw [filterIdx, if_pos hcond]
    congr 1
    refine ih (j + 1) ?_
    intro k hk
    rcases hall (k + 1) (Nat.succ_lt_succ hk) with ⟨h1, h2⟩
    have hcs : (c :: rest).get ⟨k + 1, Nat.succ_lt_succ hk⟩ = rest.get ⟨k, hk⟩ := rfl
    rw [hcs] at h1 h2
    refine ⟨h1, ?_⟩
    rw [h2]
    omega

theorem filterIdx_append (f : String → Nat → Bool) :
    ∀ (l₁ l₂ : List String) (j : Nat),
      filterIdx f (l₁ ++ l₂) j = filterIdx f l₁ j ++ filterIdx f l₂ (j + l₁.length) := by
  intro l₁
  induction l₁ with
  | nil => intro l₂ j; simp [filterIdx]
  | cons c rest ih =>
    intro l₂ j
    rw [List.cons_append]
    by_cases h : f c j
    · have e1 : filterIdx f (c :: (rest ++ l₂)) j = c :: filterIdx f (rest ++ l₂) (j + 1) := by
        simp only [filterIdx, if_pos h]
      have e2 : filterIdx f (c :: rest) j = c :: filterIdx f rest (j + 1) := by
        simp only [filterIdx, if_pos h]
      rw [e1, e2, ih l₂ (j + 1), List.cons_append, List.length_cons]
      rw [show j + (rest.length + 1) = j + 1 + rest.length from by omega]
    · have e1 : filterIdx f (c :: (rest ++ l₂)) j = filterIdx f (rest ++ l₂) (j + 1) := by
        simp only [filterIdx, if_neg h]
      have e2 : filterIdx f (c :: rest) j = filterIdx f rest (j + 1) := by
        simp only [filterIdx, if_neg h]
      rw [e1, e2, ih l₂ (j + 1), List.length_cons]
      rw [show j + (rest.length + 1) = j + 1 + rest.length from by omega]

/-- Claim C5: class reconciliation is idempotent and duplicate-free.  The
merged class list computed for the underlying element has no duplicate
entries and no entry from the wrapper's own class set; and re-running the
reconciliation on the reflected state — the underlying element carrying the
wrapper's classes followed by the previously merged list, with no external
class-list mutation in between — returns the same merged list. -/
theorem classReconciliation_idempotent (elemClasses componentClasses : List String) :
    (getElementClasses (some elemClasses) componentClasses []).Nodup ∧
    (∀ c ∈ getElementClasses (some elemClasses) componentClasses [],
      c ∉ componentClasses) ∧
    getElementClasses
        (some (componentClasses ++ getElementClasses (some elemClasses) componentClasses []))
        componentClasses []
      = getElementClasses (some elemClasses) componentClasses [] := by
  have hrw : ∀ (ec : List String),
      getElementClasses (some ec) componentClasses [] = classFilter ec componentClasses := by
    intro ec
    rw [getElementClasses_eq_classFilter]
    simp
  have hnodup : (getElementClasses (some elemClasses) componentClasses []).Nodup := by
    rw [hrw]
    exact nodup_filterIdx_class _ 0
  have hdisj : ∀ c ∈ getElementClasses (some elemClasses) componentClasses [],
      c ∉ componentClasses := by
    intro c hc
    rw [hrw] at hc
    exact (mem_filterIdx_class hc).1
  refine ⟨hnodup, hdisj, ?_⟩
  rw [hrw (componentClasses ++ getElementClasses (some elemClasses) componentClasses [])]
  unfold classFilter
  rw [filterIdx_append]
  rw [filterIdx_class_eq_nil componentClasses 0 (fun c hc => hc)]
  rw [List.nil_append, Nat.zero_add]
  refine filterIdx_class_eq_self
    (getElementClasses (some elemClasses) componentClasses [])
    componentClasses.length ?_
  intro k hk
  have hmemM := List.get_mem (getElementClasses (some elemClasses) componentClasses []) k hk
  have hnotin := hdisj _ hmemM
  refine ⟨hnotin, ?_⟩
  rw [jsIndexOf_append_of_not_mem _ hnotin, jsIndexOf_get hnodup k hk]

/-- Witness for C5 at a concrete input: merging `["a", "b", "a"]` from the
element against the wrapper set `["b"]` keeps a single `"a"`, which is not
in the wrapper's own set. -/
theorem classReconciliation_idempotent_witness :
    "a" ∉ ["b"] :=
  (classReconciliation_idempotent ["a", "b", "a"] ["b"]).2.1 "a" (by decide)

/- ===== packages/react-library-output/src/output-react.ts ===== -/

/-- The component descriptor fields the generator consults
(`@stencil/core` `ComponentCompilerMeta`): the kebab-case tag name and the
internal flag. -/
structure ComponentCompilerMeta where
  tagName : String
  internal : Bool
deriving DecidableEq

/-- Lexicographic comparison of character lists: the computable form of the
ascending string order used for sorting.  `charListLeb_iff_le` below shows
it agrees with the standard order on `String`. -/
def charListLeb : List Char → List Char → Bool
  | [], _ => true
  | _ :: _, [] => false
  | a :: as, b :: bs =>
    if a < b then true
    else if b < a then false
    else charListLeb as bs

/-- String comparison `a ≤ b`, computably. -/
def strLeb (a b : String) : Bool :=
  charListLeb a.data b.data

theorem charListLeb_iff : ∀ as bs : List Char,
    charListLeb as bs = true ↔ ¬ List.Lex (· < ·) bs as := by
  intro as
  induction as with
  | nil =>
    intro bs
    simp only [charListLeb, true_iff]
    intro h
    cases h
  | cons a as' ih =>
    intro bs
    cases bs with
    | nil =>
      simp only [charListLeb, Bool.false_eq_true, false_iff, not_not]
      exact List.Lex.nil
    | cons b bs' =>
      rcases lt_trichotomy a b with h | h | h
      · have hnb : ¬ b < a := lt_asymm h
        simp only [charListLeb, if_pos h, true_iff]
        intro hx
        cases hx with
        | cons h' => exact lt_irrefl a h
        | rel h' => exact hnb h'
      · subst h
        have hirr : ¬ a < a := lt_irrefl a
        simp only [charListLeb, if_neg hirr]
        rw [List.Lex.cons_iff]
        exact ih bs'
      · have hna : ¬ a < b := lt_asymm h
        simp only [charListLeb, if_neg hna, if_pos h, Bool.false_eq_true, false_iff,
          not_not]
        exact List.Lex.rel h

theorem strLeb_iff_le (a b : String) : strLeb a b = true ↔ a ≤ b := by
  rw [strLeb, charListLeb_iff]
  rw [show b.data = b.toList from rfl, show a.data = a.toList from rfl]
  constructor
  · intro h
    exact not_lt.mp (fun hlt => h (String.lt_iff_toList_lt.mp hlt))
  · intro h hlt
    exact absurd (String.lt_iff_toList_lt.mpr hlt) (not_lt.mpr h)

/-- Modelled from the spec: `sortBy` is imported from `./utils`, which is
not among the provided sources.  Per the spec, the generator sorts the
descriptors by (string-ascending) key for deterministic, diff-friendly
output; modelled as a stable insertion sort by the key. -/
def sortBy (cmps : List ComponentCompilerMeta) (key : ComponentCompilerMeta → String) :
    List ComponentCompilerMeta :=
  cmps.insertionSort (fun a b => strLeb (key a) (key b) = true)

/-- Modelled from the spec: `dashToPascalCase` is imported from `./utils`,
which is not among the provided sources.  Per the spec, the component name
is derived from the kebab-case tag name by PascalCase conversion
(`my-button` becomes `MyButton`): split on the dash and capitalize each
segment. -/
def capitalizeSegment (l : List Char) : List Char :=
  match l with
  | [] => []
  | ch :: rest => ch.toUpper :: rest

/-- Modelled from the spec: kebab-case to PascalCase conversion
(see `capitalizeSegment`). -/
def dashToPascalCase (s : String) : String :=
  String.mk (((splitOnChar '-' s.data).map capitalizeSegment).flatten)

/-- output-react.ts lines 14-17, `getFilteredComponents`: sort by tag name,
then drop descriptors whose tag is in the caller-supplied exclusion list or
that are marked internal. -/
def getFilteredComponents (excludeComponents : List String)
    (cmps : List ComponentCompilerMeta) : List ComponentCompilerMeta :=
  (sortBy cmps (fun cmp => cmp.tagName)).filter
    (fun c => !(excludeComponents.contains c.tagName) && !c.internal)

/-- output-react.ts line 80: `const IMPORT_TYPES = 'JSX'`. -/
def IMPORT_TYPES : String := "JSX"

/-- output-react.ts lines 52-58, `createComponentDefinition`: one exported
definition per descriptor, whose component name is the PascalCase form of
the tag name. -/
def createComponentDefinition (cmpMeta : ComponentCompilerMeta) : List String :=
  ["export const " ++ dashToPascalCase cmpMeta.tagName ++
    " = /* #__PURE__ */createReactComponent<" ++ IMPORT_TYPES ++ "." ++
    dashToPascalCase cmpMeta.tagName ++ ", HTML" ++ dashToPascalCase cmpMeta.tagName ++
    "Element>(window, '" ++ cmpMeta.tagName ++ "', Import" ++
    dashToPascalCase cmpMeta.tagName ++ ");"]

/-- The output host: `config.sys` may be missing, and when present its
file-copy capability `config.sys.copy` may be missing. -/
structure StencilSys where
  copy : Bool
deriving DecidableEq

/-- The compiler `Config` fields the generator consults. -/
structure Config where
  sys : Option StencilSys
  rootDir : String
deriving DecidableEq

/-- The `OutputTargetReact` fields the generator consults. -/
structure OutputTargetReact where
  proxiesFile : String
  excludeComponents : List String
deriving DecidableEq

/-- output-react.ts line 67: the message of the error thrown for an
uninitialized host. -/
def INIT_ERROR_MSG : String :=
  "stencil is not properly intialized at this step. Notify the developer"

/-- output-react.ts lines 60-77, `copyResources`: the fixed runtime-support
files are copied next to the proxies file; if `config.sys` or
`config.sys.copy` is missing, an `Error` is thrown (modelled as
`Except.error`).  Path resolution of the copy destinations is delegated to
external collaborators (Node's `path`), so the result carries the copied
file names. -/
def copyResources (config : Config) (_outputTarget : OutputTargetReact) :
    Except String (List String) :=
  let resourcesFilesToCopy := ["utils.ts", "createComponent.tsx"]
  match config.sys with
  | none => Except.error INIT_ERROR_MSG
  | some sys =>
    if sys.copy then Except.ok resourcesFilesToCopy
    else Except.error INIT_ERROR_MSG

/-- output-react.ts lines 6-12, `reactProxyOutput`: filter the descriptors,
generate the proxies module (the file write is performed by the external
compiler context; the emitted per-component definitions are the
`createComponentDefinition` of each filtered descriptor), then copy the
runtime-support resources.  A thrown error propagates as `Except.error`. -/
def reactProxyOutput (config : Config) (outputTarget : OutputTargetReact)
    (components : List ComponentCompilerMeta) :
    Except String (List (List String) × List String) :=
  let filteredComponents := getFilteredComponents outputTarget.excludeComponents components
  let definitions := filteredComponents.map createComponentDefinition
  (copyResources config outputTarget).map (fun copied => (definitions, copied))

theorem sortBy_perm (cmps : List ComponentCompilerMeta)
    (key : ComponentCompilerMeta → String) : (sortBy cmps key).Perm cmps :=
  List.perm_insertionSort _ cmps

theorem sortBy_sorted (cmps : List ComponentCompilerMeta)
    (key : ComponentCompilerMeta → String) :
    (sortBy cmps key).Pairwise (fun a b => key a ≤ key b) := by
  haveI : IsTotal ComponentCompilerMeta (fun a b => strLeb (key a) (key b) = true) :=
    ⟨fun a b => by
      rcases le_total (key a) (key b) with h | h
      · exact Or.inl ((strLeb_iff_le _ _).mpr h)
      · exact Or.inr ((strLeb_iff_le _ _).mpr h)⟩
  haveI : IsTrans ComponentCompilerMeta (fun a b => strLeb (key a) (key b) = true) :=
    ⟨fun _ _ _ hab hbc => (strLeb_iff_le _ _).mpr
      (le_trans ((strLeb_iff_le _ _).mp hab) ((strLeb_iff_le _ _).mp hbc))⟩
  exact (List.sorted_insertionSort _ cmps).imp (fun h => (strLeb_iff_le _ _).mp h)

/-- Claim C7: the generator emits exactly one component definition per
descriptor that is neither internal nor excluded (the emitted definition
list is the image of the filtered descriptors, whose multiset equals the
qualifying descriptors), in ascending tag-name order, with each component
name derived from the tag by PascalCase conversion; in particular
descriptors `x-b`, `x-a` are emitted as `x-a` then `x-b` with derived names
`XA` and `XB`. -/
theorem generator_sorted_filtered_definitions (excludeComponents : List String)
    (cmps : List ComponentCompilerMeta) :
    (getFilteredComponents excludeComponents cmps).Perm
      (cmps.filter (fun c => !(excludeComponents.contains c.tagName) && !c.internal)) ∧
    (getFilteredComponents excludeComponents cmps).Pairwise
      (fun a b => a.tagName ≤ b.tagName) ∧
    ((getFilteredComponents excludeComponents cmps).map createComponentDefinition).length
      = (cmps.filter
          (fun c => !(excludeComponents.contains c.tagName) && !c.internal)).length ∧
    getFilteredComponents [] [⟨"x-b", false⟩, ⟨"x-a", false⟩]
      = [⟨"x-a", false⟩, ⟨"x-b", false⟩] ∧
    dashToPascalCase "x-a" = "XA" ∧ dashToPascalCase "x-b" = "XB" ∧
    dashToPascalCase "my-button" = "MyButton" := by
  have hperm : (getFilteredComponents excludeComponents cmps).Perm
      (cmps.filter (fun c => !(excludeComponents.contains c.tagName) && !c.internal)) :=
    (sortBy_perm cmps (fun cmp => cmp.tagName)).filter _
  refine ⟨hperm, ?_, by rw [List.length_map, hperm.length_eq], ?_, ?_, ?_, ?_⟩
  · exact (sortBy_sorted cmps (fun cmp => cmp.tagName)).sublist (List.filter_sublist _)
  · decide
  · decide
  · decide
  · decide

/-- Claim C8: generation fails with the configuration error exactly when the
output host's file-copy capability is unavailable (`config.sys` or
`config.sys.copy` missing); with a capable host no error is raised and the
definitions plus copied resources are produced. -/
theorem host_copy_capability_gate (config : Config) (tgt : OutputTargetReact)
    (cmps : List ComponentCompilerMeta) :
    ((config.sys = none ∨ ∃ s, config.sys = some s ∧ s.copy = false) →
      reactProxyOutput config tgt cmps = Except.error INIT_ERROR_MSG) ∧
    (∀ s, config.sys = some s → s.copy = true →
      reactProxyOutput config tgt cmps = Except.ok
        ((getFilteredComponents tgt.excludeComponents cmps).map createComponentDefinition,
          ["utils.ts", "createComponent.tsx"])) ∧
    ((∃ msg, reactProxyOutput config tgt cmps = Except.error msg) →
      (config.sys = none ∨ ∃ s, config.sys = some s ∧ s.copy = false)) := by
  refine ⟨?_, ?_, ?_⟩
  · rintro (h | ⟨s, hs, hc⟩)
    · simp [reactProxyOutput, copyResources, h, Except.map]
    · simp [reactProxyOutput, copyResources, hs, hc, Except.map]
  · intro s hs hc
    simp [reactProxyOutput, copyResources, hs, hc, Except.map]
  · rintro ⟨msg, hmsg⟩
    cases hsys : config.sys with
    | none => exact Or.inl rfl
    | some s =>
      cases hc : s.copy with
      | false => exact Or.inr ⟨s, rfl, hc⟩
      | true =>
        exfalso
        simp [reactProxyOutput, copyResources, hsys, hc, Except.map] at hmsg

/-- Witness for C8: a host with `config.sys` missing makes generation fail
with the configuration error; one with the copy capability succeeds. -/
theorem host_copy_capability_gate_witness :
    reactProxyOutput ⟨none, "/app"⟩ ⟨"proxies.ts", []⟩ []
      = Except.error INIT_ERROR_MSG ∧
    reactProxyOutput ⟨some ⟨true⟩, "/app"⟩ ⟨"proxies.ts", []⟩ []
      = Except.ok ([], ["utils.ts", "createComponent.tsx"]) :=
  ⟨(host_copy_capability_gate ⟨none, "/app"⟩ ⟨"proxies.ts", []⟩ []).1 (Or.inl rfl),
   (host_copy_capability_gate ⟨some ⟨true⟩, "/app"⟩ ⟨"proxies.ts", []⟩ []).2.1
     ⟨true⟩ rfl rfl⟩

end StencilVeri
